import Mathlib

/-!
Verification of the KaraLuxer subtitle-to-Ultrastar conversion core.

This file is a shallow embedding of the algorithmic core of the repository:

* `src/ultrastar/ultrastar.py` — `NoteLine`, `UltrastarSong.adjust_notes`,
  `UltrastarSong.sort_metadata`, `UltrastarSong.__str__`;
* `src/karaluxer.py` — `SYLLABLE_REGEX` syllable extraction,
  `KaraLuxer._convert_lines`, `KaraLuxer._filter_overlapping_lines_individual`,
  `KaraLuxer._separate_duet_parts`, `KaraLuxer._get_styles_in_lines`.

Python machine arithmetic is embedded exactly: Python ints are `ℤ`, and every
call `round(x / y)` in the source (whose operands are integers, or integers
scaled by the fixed constants 100 and 1500) is embedded as the exact rational
rounding `pyRoundDiv x y`.  Python's `round` is round-half-to-even; for the
small operand ranges this program produces, the IEEE double computed by the
source rounds to the same integer as the exact rational (the quantities
compared against the half-way point differ from it by far more than one ulp).
-/

/-- Python's `round(a / b)` for integers `a` and `b > 0`, computed exactly:
round half to even.  `a / b` and `a % b` are Lean's Euclidean division, which
for a positive divisor agrees with Python's floor division and modulo. -/
def pyRoundDiv (a b : ℤ) : ℤ :=
  if 2 * (a % b) < b then a / b
  else if b < 2 * (a % b) then a / b + 1
  else if (a / b) % 2 = 0 then a / b else a / b + 1

theorem pyRoundDiv_mul_left {k b : ℤ} (hb : 0 < b) : pyRoundDiv (k * b) b = k := by
  unfold pyRoundDiv
  rw [Int.mul_emod_left, Int.mul_ediv_cancel _ (ne_of_gt hb)]
  simp [hb]

/-- `m * round(d / m) = d` when `m` divides `d` (the rounding is exact). -/
theorem pyRoundDiv_of_dvd {m d : ℤ} (hm : 0 < m) (hdvd : m ∣ d) :
    m * pyRoundDiv d m = d := by
  obtain ⟨k, rfl⟩ := hdvd
  rw [mul_comm m k, pyRoundDiv_mul_left hm, mul_comm]

theorem ediv_le_pyRoundDiv (a : ℤ) {b : ℤ} (hb : 0 < b) : a / b ≤ pyRoundDiv a b := by
  unfold pyRoundDiv
  split
  · exact le_refl _
  · split
    · omega
    · split <;> omega

theorem one_le_pyRoundDiv {a b : ℤ} (hb : 0 < b) (hba : b ≤ a) : 1 ≤ pyRoundDiv a b := by
  have h1 : 1 ≤ a / b := by
    rw [Int.le_ediv_iff_mul_le hb]
    omega
  exact le_trans h1 (ediv_le_pyRoundDiv a hb)

/-- The value of Python's `round(a / b)` for `0 < a < b`: it is `1` exactly
when `a / b` is strictly greater than one half.  The half-way point
`2 * a = b` rounds to `0` (the even neighbour), i.e. DOWN, not up. -/
theorem pyRoundDiv_lt_one {a b : ℤ} (ha : 0 < a) (hab : a < b) :
    pyRoundDiv a b = if b < 2 * a then 1 else 0 := by
  have hb : 0 < b := lt_trans ha hab
  have hmod : a % b = a := Int.emod_eq_of_lt (le_of_lt ha) hab
  have hdiv : a / b = 0 := Int.ediv_eq_zero_of_lt (le_of_lt ha) hab
  unfold pyRoundDiv
  rw [hmod, hdiv]
  by_cases h1 : 2 * a < b
  · rw [if_pos h1, if_neg (by omega)]
  · rw [if_neg h1]
    by_cases h2 : b < 2 * a
    · rw [if_pos h2, if_pos h2]
      omega
    · rw [if_neg h2, if_pos (by omega), if_neg h2]

/-! ## `NoteLine` (src/ultrastar/ultrastar.py, class `NoteLine`)

A note line of the Ultrastar file.  `duration`, `pitch` and `text` are
`Option`s, mirroring the `Optional` constructor arguments defaulting to
`None`. -/

structure NoteLine where
  note_type : String
  start_beat : ℤ
  duration : Option ℤ := none
  pitch : Option ℤ := none
  text : Option String := none
deriving DecidableEq

/-- Outcome of running `NoteLine.__init__`'s validation: constructed silently,
constructed with a `warnings.warn`, or aborted by `raise ValueError`. -/
inductive NoteInit where
  | ok
  | warned
  | error
deriving DecidableEq

/-- Python truthiness of an `Optional[int]`: `None` and `0` are falsy. -/
def truthyInt : Option ℤ → Bool
  | none => false
  | some n => decide (n ≠ 0)

/-- Python truthiness of an `Optional[str]`: `None` and `''` are falsy. -/
def truthyStr : Option String → Bool
  | none => false
  | some s => decide (s ≠ "")

/-- The validation performed by `NoteLine.__init__`:
`if self.note_type != '-' and not (duration and pitch and text):` then
`warn` when `duration == 0`, else `raise ValueError`. -/
def noteLineInit (note_type : String) (duration pitch : Option ℤ)
    (text : Option String) : NoteInit :=
  if note_type ≠ "-" ∧ ¬(truthyInt duration ∧ truthyInt pitch ∧ truthyStr text) then
    if duration = some 0 then .warned else .error
  else .ok

/-- `NoteLine.__str__`: `"TYPE START DURATION PITCH TEXT"`, or `"- TIME"` for
a linebreak.  Python's `str.format` renders a `None` field as `"None"`. -/
def optIntStr : Option ℤ → String
  | none => "None"
  | some n => toString n

def optStrStr : Option String → String
  | none => "None"
  | some s => s

def noteLineStr (n : NoteLine) : String :=
  if n.note_type = "-" then
    n.note_type ++ " " ++ toString n.start_beat
  else
    n.note_type ++ " " ++ toString n.start_beat ++ " " ++ optIntStr n.duration
      ++ " " ++ optIntStr n.pitch ++ " " ++ optStrStr n.text

/-! ## `UltrastarSong.adjust_notes` (src/ultrastar/ultrastar.py)

The BPM rescaler.  The Python method mutates the note list of one player in
place; the embedding is the equivalent pure transform.  `adjust_notes` scans
past leading linebreaks to the first sung note (returning the list unchanged
if there is none), snaps that note's duration, and then processes the
remaining notes in order:

* a linebreak is put aside (`last_break_idx`) and later assigned the start
  beat of the next sung note once that note is snapped;
* a sung note's start beat is snapped by `snapStart` against the (already
  processed) nearest preceding sung note and the first sung note's start
  beat (`start_beat` in the source, the grid anchor), and its duration is
  snapped by `snapDuration`. -/

/-- Duration snap: `bpm_multiplier` if below it, else the nearest multiple
(`bpm_multiplier * round(duration / bpm_multiplier)`). -/
def snapDuration (m d : ℤ) : ℤ :=
  if d < m then m else m * pyRoundDiv d m

/-- Start-beat snap for a non-first sung note.  `prevEnd` is
`previous_note.start_beat + previous_note.duration` for the nearest preceding
non-linebreak note; `anchor` is the first sung note's start beat.  Mirrors the
source: the quantization-overlap case sets the start to `prevEnd`; otherwise
the modulus against the anchor grid is rounded away via
`round(modulus / bpm_multiplier) == 1`. -/
def snapStart (m anchor prevEnd s : ℤ) : ℤ :=
  if prevEnd > s ∧ s > prevEnd - m then prevEnd
  else if (s - anchor) % m = 0 then s
  else if pyRoundDiv ((s - anchor) % m) m = 1 then s + (m - (s - anchor) % m)
  else s - (s - anchor) % m

/-- The loop over `notes[start+1:]`.  `prevS`/`prevD` are the updated start
beat and duration of the nearest preceding sung note; `pending` holds the
linebreaks seen since that note (`last_break_idx`), which are emitted with the
next sung note's snapped start beat, or unchanged if the track ends. -/
def adjustGo (m anchor : ℤ) (prevS prevD : ℤ) (pending : List NoteLine) :
    List NoteLine → List NoteLine
  | [] => pending
  | n :: rest =>
    if n.note_type = "-" then
      adjustGo m anchor prevS prevD (pending ++ [n]) rest
    else
      let s := snapStart m anchor (prevS + prevD) n.start_beat
      let d := snapDuration m (n.duration.getD 0)
      pending.map (fun b => { b with start_beat := s }) ++
        ({ n with start_beat := s, duration := some d } :: adjustGo m anchor s d [] rest)

/-- `UltrastarSong.adjust_notes` as a pure transform of one player's track. -/
def adjust_notes (m : ℤ) : List NoteLine → List NoteLine
  | [] => []
  | n :: rest =>
    if n.note_type = "-" then n :: adjust_notes m rest
    else
      let d := snapDuration m (n.duration.getD 0)
      { n with duration := some d } :: adjustGo m n.start_beat n.start_beat d [] rest

/-! ### Invariants established by one `adjust_notes` pass -/

/-- Start beat of the first non-linebreak note of a track, if any. -/
def firstSungStart : List NoteLine → Option ℤ
  | [] => none
  | n :: rest => if n.note_type = "-" then firstSungStart rest else some n.start_beat

/-- A sung note is *good* for multiplier `m` and grid anchor `anchor`: its
start beat sits on the anchor grid and its duration is a positive multiple of
`m`. -/
def GoodNote (m anchor : ℤ) (n : NoteLine) : Prop :=
  (n.start_beat - anchor) % m = 0 ∧ ∃ d, n.duration = some d ∧ d % m = 0 ∧ m ≤ d

/-- Shape of the note list that follows the first sung note after one
rescaling pass: every sung note is good, and every linebreak carries the
start beat of the next sung note (if one follows). -/
def NormalTail (m anchor : ℤ) : List NoteLine → Prop
  | [] => True
  | n :: rest =>
    (if n.note_type = "-" then ∀ s, firstSungStart rest = some s → n.start_beat = s
     else GoodNote m anchor n) ∧ NormalTail m anchor rest

theorem snapDuration_good {m : ℤ} (hm : 1 ≤ m) (d : ℤ) :
    snapDuration m d % m = 0 ∧ m ≤ snapDuration m d := by
  unfold snapDuration
  split
  · exact ⟨Int.emod_self, le_refl m⟩
  · rename_i hdm
    have hk : 1 ≤ pyRoundDiv d m := one_le_pyRoundDiv (by omega) (by omega)
    refine ⟨Int.mul_emod_right m _, ?_⟩
    calc m = m * 1 := by ring
    _ ≤ m * pyRoundDiv d m := by
        apply mul_le_mul_of_nonneg_left hk
        omega

theorem snapDuration_fix {m d : ℤ} (hm : 1 ≤ m) (hmod : d % m = 0) (hle : m ≤ d) :
    snapDuration m d = d := by
  unfold snapDuration
  rw [if_neg (by omega)]
  exact pyRoundDiv_of_dvd (by omega) (Int.dvd_of_emod_eq_zero hmod)

theorem snapStart_grid {m anchor prevEnd : ℤ} (s : ℤ) (hm : 1 ≤ m)
    (hprev : (prevEnd - anchor) % m = 0) :
    (snapStart m anchor prevEnd s - anchor) % m = 0 := by
  unfold snapStart
  split
  · exact hprev
  · split
    · assumption
    · split
      · have h : s + (m - (s - anchor) % m) - anchor = m * (1 + (s - anchor) / m) := by
          rw [Int.emod_def]; ring
        rw [h, Int.mul_emod_right]
      · have h : s - (s - anchor) % m - anchor = m * ((s - anchor) / m) := by
          rw [Int.emod_def]; ring
        rw [h, Int.mul_emod_right]

theorem snapStart_fix {m anchor prevEnd s : ℤ} (hm : 1 ≤ m)
    (hprev : (prevEnd - anchor) % m = 0) (hs : (s - anchor) % m = 0) :
    snapStart m anchor prevEnd s = s := by
  unfold snapStart
  rw [if_neg, if_pos hs]
  rintro ⟨h1, h2⟩
  have hd : (prevEnd - s) % m = 0 := by
    have h : prevEnd - s = (prevEnd - anchor) - (s - anchor) := by ring
    rw [h, Int.sub_emod, hprev, hs]
    simp
  have hdvd : m ∣ prevEnd - s := Int.dvd_of_emod_eq_zero hd
  have hle : m ≤ prevEnd - s := Int.le_of_dvd (by omega) hdvd
  omega

theorem firstSungStart_append_breaks {bs : List NoteLine}
    (h : ∀ b ∈ bs, b.note_type = "-") (l : List NoteLine) :
    firstSungStart (bs ++ l) = firstSungStart l := by
  induction bs with
  | nil => rfl
  | cons b bs ih =>
    have hb : b.note_type = "-" := h b (List.mem_cons_self b bs)
    simp only [List.cons_append, firstSungStart, if_pos hb]
    exact ih (fun x hx => h x (List.mem_cons_of_mem b hx))

theorem firstSungStart_of_breaks {l : List NoteLine}
    (h : ∀ b ∈ l, b.note_type = "-") : firstSungStart l = none := by
  induction l with
  | nil => rfl
  | cons b bs ih =>
    have hb : b.note_type = "-" := h b (List.mem_cons_self b bs)
    simp only [firstSungStart, if_pos hb]
    exact ih (fun x hx => h x (List.mem_cons_of_mem b hx))

theorem normalTail_of_breaks {m anchor : ℤ} {l : List NoteLine}
    (h : ∀ b ∈ l, b.note_type = "-") : NormalTail m anchor l := by
  induction l with
  | nil => trivial
  | cons b bs ih =>
    have hb : b.note_type = "-" := h b (List.mem_cons_self b bs)
    refine ⟨?_, ih (fun x hx => h x (List.mem_cons_of_mem b hx))⟩
    rw [if_pos hb]
    intro s hs
    rw [firstSungStart_of_breaks (fun x hx => h x (List.mem_cons_of_mem b hx))] at hs
    cases hs

theorem normalTail_append_breaks {m anchor s0 : ℤ} {bs l : List NoteLine}
    (hb : ∀ b ∈ bs, b.note_type = "-" ∧ b.start_beat = s0)
    (hl : firstSungStart l = some s0) (hnl : NormalTail m anchor l) :
    NormalTail m anchor (bs ++ l) := by
  induction bs with
  | nil => exact hnl
  | cons b bs ih =>
    obtain ⟨hbt, hbs⟩ := hb b (List.mem_cons_self b bs)
    refine ⟨?_, ih (fun x hx => hb x (List.mem_cons_of_mem b hx))⟩
    rw [if_pos hbt]
    intro s hs
    change firstSungStart (bs ++ l) = some s at hs
    rw [firstSungStart_append_breaks
      (fun x hx => (hb x (List.mem_cons_of_mem b hx)).1) l, hl] at hs
    have hss : s0 = s := Option.some.inj hs
    omega

/-- One pass of the rescaling loop leaves the processed tail in normal form:
sung notes on the anchor grid with durations that are positive multiples of
`m`, and linebreaks aligned to the next sung note. -/
theorem adjustGo_normal {m : ℤ} (anchor : ℤ) (hm : 1 ≤ m) :
    ∀ (rest : List NoteLine) (prevS prevD : ℤ) (pending : List NoteLine),
      (prevS + prevD - anchor) % m = 0 →
      (∀ b ∈ pending, b.note_type = "-") →
      NormalTail m anchor (adjustGo m anchor prevS prevD pending rest)
  | [], prevS, prevD, pending, hgrid, hpend => by
      simp only [adjustGo]
      exact normalTail_of_breaks hpend
  | n :: rest, prevS, prevD, pending, hgrid, hpend => by
      by_cases hn : n.note_type = "-"
      · simp only [adjustGo, if_pos hn]
        refine adjustGo_normal anchor hm rest prevS prevD (pending ++ [n]) hgrid ?_
        intro b hbmem
        rcases List.mem_append.mp hbmem with h1 | h2
        · exact hpend b h1
        · rw [List.mem_singleton.mp h2]; exact hn
      · simp only [adjustGo, if_neg hn]
        obtain ⟨nt, sb, du, pi, tx⟩ := n
        simp only at hn ⊢
        set s := snapStart m anchor (prevS + prevD) sb with hsdef
        set d := snapDuration m (du.getD 0) with hddef
        have hsgrid : (s - anchor) % m = 0 := snapStart_grid sb hm hgrid
        have hdgood := snapDuration_good hm (du.getD 0)
        refine @normalTail_append_breaks m anchor s _ _ ?_ ?_ ?_
        · intro b hbmem
          obtain ⟨b0, hb0, rfl⟩ := List.mem_map.mp hbmem
          exact ⟨hpend b0 hb0, rfl⟩
        · simp only [firstSungStart, if_neg hn]
        · refine ⟨?_, ?_⟩
          · rw [if_neg hn]
            exact ⟨hsgrid, d, rfl, hdgood.1, hdgood.2⟩
          · refine adjustGo_normal anchor hm rest s d [] ?_ (by intro b hb; cases hb)
            have h : (s + d - anchor) = (s - anchor) + d := by ring
            rw [h, Int.add_emod, hsgrid, hdgood.1]
            simp

/-- Retargeting of the pending linebreaks: what `adjustGo` does to `pending`
when the remaining input is already in normal form. -/
def retarget (pending rest : List NoteLine) : List NoteLine :=
  match firstSungStart rest with
  | some s => pending.map (fun b => { b with start_beat := s })
  | none => pending

theorem retarget_nil (rest : List NoteLine) : retarget [] rest = [] := by
  unfold retarget
  cases firstSungStart rest <;> rfl

/-- A normal-form tail is a fixed point of the rescaling loop. -/
theorem adjustGo_fix {m : ℤ} (anchor : ℤ) (hm : 1 ≤ m) :
    ∀ (rest : List NoteLine) (prevS prevD : ℤ) (pending : List NoteLine),
      (prevS + prevD - anchor) % m = 0 →
      NormalTail m anchor rest →
      adjustGo m anchor prevS prevD pending rest = retarget pending rest ++ rest
  | [], prevS, prevD, pending, hgrid, hnt => by
      simp [adjustGo, retarget, firstSungStart]
  | n :: rest, prevS, prevD, pending, hgrid, hnt => by
      by_cases hn : n.note_type = "-"
      · obtain ⟨hali, hnt2⟩ := hnt
        rw [if_pos hn] at hali
        simp only [adjustGo, if_pos hn]
        rw [adjustGo_fix anchor hm rest prevS prevD (pending ++ [n]) hgrid hnt2]
        simp only [retarget, firstSungStart, if_pos hn]
        cases h : firstSungStart rest with
        | none => simp
        | some s =>
          have hstart : n.start_beat = s := hali s h
          subst hstart
          simp
      · obtain ⟨hgn, hnt2⟩ := hnt
        rw [if_neg hn] at hgn
        obtain ⟨hgridn, d0, hdur, hd0m, hd0le⟩ := hgn
        simp only [adjustGo, if_neg hn]
        have hsfix : snapStart m anchor (prevS + prevD) n.start_beat = n.start_beat :=
          snapStart_fix hm hgrid hgridn
        have hget : n.duration.getD 0 = d0 := by rw [hdur]; rfl
        have hdfix : snapDuration m (n.duration.getD 0) = d0 := by
          rw [hget]; exact snapDuration_fix hm hd0m hd0le
        rw [hsfix, hdfix]
        have hnewgrid : (n.start_beat + d0 - anchor) % m = 0 := by
          have h : (n.start_beat + d0 - anchor) = (n.start_beat - anchor) + d0 := by ring
          rw [h, Int.add_emod, hgridn, hd0m]
          simp
        rw [adjustGo_fix anchor hm rest n.start_beat d0 [] hnewgrid hnt2, retarget_nil,
          List.nil_append]
        have heta : ({ n with start_beat := n.start_beat, duration := some d0 } : NoteLine)
            = n := by
          rw [← hdur]
        rw [heta]
        simp only [retarget, firstSungStart, if_neg hn]

/-- The BPM rescaling transform is idempotent (helper, unbundled). -/
theorem adjust_notes_idem_aux {m : ℤ} (hm : 1 ≤ m) :
    ∀ notes : List NoteLine, adjust_notes m (adjust_notes m notes) = adjust_notes m notes
  | [] => rfl
  | n :: rest => by
      by_cases hn : n.note_type = "-"
      · simp only [adjust_notes, if_pos hn]
        rw [adjust_notes_idem_aux hm rest]
      · obtain ⟨nt, sb, du, pi, tx⟩ := n
        simp only at hn
        have hdg := snapDuration_good hm (du.getD 0)
        have heq1 : adjust_notes m (⟨nt, sb, du, pi, tx⟩ :: rest)
            = ⟨nt, sb, some (snapDuration m (du.getD 0)), pi, tx⟩ ::
              adjustGo m sb sb (snapDuration m (du.getD 0)) [] rest := by
          simp only [adjust_notes, if_neg hn]
        rw [heq1]
        have hgridd : (sb + snapDuration m (du.getD 0) - sb) % m = 0 := by
          have h : (sb + snapDuration m (du.getD 0) - sb) = snapDuration m (du.getD 0) := by
            ring
          rw [h]; exact hdg.1
        have hTn : NormalTail m sb (adjustGo m sb sb (snapDuration m (du.getD 0)) [] rest) :=
          adjustGo_normal sb hm rest sb _ [] hgridd (by intro b hb; cases hb)
        have hdfix : snapDuration m (snapDuration m (du.getD 0)) = snapDuration m (du.getD 0) :=
          snapDuration_fix hm hdg.1 hdg.2
        have heq2 : adjust_notes m (⟨nt, sb, some (snapDuration m (du.getD 0)), pi, tx⟩ ::
              adjustGo m sb sb (snapDuration m (du.getD 0)) [] rest)
            = ⟨nt, sb, some (snapDuration m (du.getD 0)), pi, tx⟩ ::
              adjustGo m sb sb (snapDuration m (du.getD 0)) []
                (adjustGo m sb sb (snapDuration m (du.getD 0)) [] rest) := by
          simp only [adjust_notes, if_neg hn, Option.getD_some]
          rw [hdfix]
        rw [heq2]
        rw [adjustGo_fix sb hm _ sb _ [] hgridd hTn, retarget_nil, List.nil_append]

/-- C2: The BPM rescaler is idempotent: for every note track and every integer
multiplier `m ≥ 1`, applying `adjust_notes` twice with the same `m` yields
exactly the same note sequence (same start beats and durations for every note,
including linebreaks) as applying it once. -/
theorem adjust_notes_rescale_idempotent (m : ℤ) (notes : List NoteLine) (hm : 1 ≤ m) :
    adjust_notes m (adjust_notes m notes) = adjust_notes m notes :=
  adjust_notes_idem_aux hm notes

theorem adjust_notes_rescale_idempotent_witness :
    adjust_notes 5 (adjust_notes 5
        [⟨":", 100, some 5, some 19, some "x"⟩, ⟨"-", 111, none, none, none⟩,
         ⟨":", 112, some 7, some 19, some "y"⟩])
      = adjust_notes 5
        [⟨":", 100, some 5, some 19, some "x"⟩, ⟨"-", 111, none, none, none⟩,
         ⟨":", 112, some 7, some 19, some "y"⟩] :=
  adjust_notes_rescale_idempotent 5 _ (by decide)

/-! ### Frame property of the rescaler (C10) -/

/-- The fields of a note that `adjust_notes` never touches. -/
def noteFrame (n : NoteLine) : String × Option ℤ × Option String :=
  (n.note_type, n.pitch, n.text)

theorem adjustGo_frame (m anchor : ℤ) :
    ∀ (rest : List NoteLine) (prevS prevD : ℤ) (pending : List NoteLine),
      (adjustGo m anchor prevS prevD pending rest).map noteFrame
        = pending.map noteFrame ++ rest.map noteFrame
  | [], _, _, pending => by simp [adjustGo]
  | n :: rest, prevS, prevD, pending => by
      by_cases hn : n.note_type = "-"
      · simp only [adjustGo, if_pos hn]
        rw [adjustGo_frame m anchor rest prevS prevD (pending ++ [n])]
        simp
      · simp only [adjustGo, if_neg hn, List.map_append, List.map_cons]
        rw [adjustGo_frame m anchor rest _ _ []]
        simp only [List.map_nil, List.nil_append, List.map_map]
        have h1 : ∀ b : NoteLine,
            (noteFrame ∘ fun b => { b with
              start_beat := snapStart m anchor (prevS + prevD) n.start_beat }) b
              = noteFrame b := fun b => rfl
        rw [List.map_congr_left (fun b _ => h1 b)]
        rfl

theorem adjust_notes_frame_aux (m : ℤ) :
    ∀ notes : List NoteLine, (adjust_notes m notes).map noteFrame = notes.map noteFrame
  | [] => rfl
  | n :: rest => by
      by_cases hn : n.note_type = "-"
      · simp only [adjust_notes, if_pos hn, List.map_cons]
        rw [adjust_notes_frame_aux m rest]
      · simp only [adjust_notes, if_neg hn, List.map_cons]
        rw [adjustGo_frame m n.start_beat rest _ _ []]
        simp only [List.map_nil, List.nil_append]
        rfl

/-- C10: For every note track and every integer multiplier, `adjust_notes`
changes only the `start_beat` and `duration` fields of notes: it adds no
notes, removes none, does not reorder the sequence, and leaves every note's
`note_type`, `pitch` and `text` unchanged (stated as: the position-wise
projection to those fields is preserved). -/
theorem adjust_notes_frame_effect (m : ℤ) (notes : List NoteLine) (hm : 1 ≤ m) :
    (adjust_notes m notes).map noteFrame = notes.map noteFrame :=
  adjust_notes_frame_aux m notes

theorem adjust_notes_frame_effect_witness :
    (adjust_notes 3 [⟨":", 7, some 2, some 19, some "x"⟩, ⟨"-", 10, none, none, none⟩]).map
        noteFrame
      = [⟨":", 7, some 2, some 19, some "x"⟩, ⟨"-", 10, none, none, none⟩].map noteFrame :=
  adjust_notes_frame_effect 3 _ (by decide)

/-! ### Tie-breaking of the modulus snap (C4) -/

/-- C4 counterexample input: multiplier `m = 2`, anchor note at beat `0` with
duration `2`, second sung note at beat `3`.  The second note's remainder from
the anchor grid is `1 = m / 2`, exactly half-way, and the quantization-overlap
rule does not apply (`prevEnd = 2 ≤ 3`). -/
def rescaleHalfwayEx : List NoteLine :=
  [⟨":", 0, some 2, some 19, some "a"⟩, ⟨":", 3, some 2, some 19, some "b"⟩]

/-- C4 counterexample: the claim says a remainder exactly half-way between two
multiples is resolved by rounding UP (which would move the note at beat `3` to
beat `4`); the code rounds it DOWN to beat `2`, because Python's
`round(modulus / multiplier)` is round-half-to-even and `round(0.5) == 0`. -/
theorem rescale_halfway_rounds_down_counterexample :
    (adjust_notes 2 rescaleHalfwayEx).map NoteLine.start_beat = [0, 2] ∧
    ¬((adjust_notes 2 rescaleHalfwayEx).map NoteLine.start_beat = [0, 4]) := by decide

/-- C4 (amended): in the BPM rescaler, every sung note after the first whose
snap is not overridden by the preceding-note-overlap rule has its start beat
moved to the nearest multiple-of-`m` offset from the first sung note's start
beat, and a remainder exactly half-way between two multiples (`2 * modulus =
m`) is resolved by rounding DOWN to the earlier multiple (the note moves back
by `m / 2`), not up. -/
theorem snapStart_nearest_halfway_down (m anchor prevEnd s : ℤ) (hm : 1 ≤ m)
    (hov : ¬(prevEnd > s ∧ s > prevEnd - m)) :
    snapStart m anchor prevEnd s =
      if m < 2 * ((s - anchor) % m) then s + (m - (s - anchor) % m)
      else s - (s - anchor) % m := by
  unfold snapStart
  rw [if_neg hov]
  by_cases h0 : (s - anchor) % m = 0
  · rw [if_pos h0, h0]
    rw [if_neg (by omega)]
    ring
  · rw [if_neg h0]
    have hmodpos : 0 < (s - anchor) % m := by
      have := Int.emod_nonneg (s - anchor) (show m ≠ 0 by omega)
      omega
    have hmodlt : (s - anchor) % m < m := Int.emod_lt_of_pos _ (by omega)
    rw [pyRoundDiv_lt_one hmodpos hmodlt]
    by_cases h2 : m < 2 * ((s - anchor) % m)
    · simp only [if_pos h2]
      norm_num
    · simp only [if_neg h2]
      norm_num

theorem snapStart_nearest_halfway_down_witness : snapStart 2 0 0 3 = 2 := by
  rw [snapStart_nearest_halfway_down 2 0 0 3 (by decide) (by decide)]
  decide

/-! ## Metadata headers (`UltrastarSong.add_metadata` / `sort_metadata` / `__str__`)

`meta_lines` is a Python dict: insertion-ordered with unique keys;
overwriting an existing key keeps its original position. -/

def add_metadata (ml : List (String × String)) (tag value : String) :
    List (String × String) :=
  if ml.any (fun p => p.1 = tag) then
    ml.map (fun p => if p.1 = tag then (tag, value) else p)
  else ml ++ [(tag, value)]

/-- Insert a sequence of key/value pairs into an empty `meta_lines` dict. -/
def addAllMetadata (ps : List (String × String)) : List (String × String) :=
  ps.foldl (fun ml p => add_metadata ml p.1 p.2) []

/-- The fixed priority order used by `sort_metadata`. -/
def headerOrder : List String :=
  ["VERSION", "TITLE", "ARTIST", "LANGUAGE", "GENRE", "CREATOR", "TAGS", "YEAR",
   "AUDIO", "MP3", "INSTRUMENTAL", "VOCALS", "BACKGROUND", "COVER", "VIDEO",
   "BPM", "GAP", "START", "END", "PREVIEWSTART", "VIDEOGAP", "COMMENT",
   "PROVIDEDBY", "KARALUXER-KARAID", "KARALUXER-VERSION"]

def lookupMeta (k : String) (ml : List (String × String)) : Option String :=
  (ml.find? (fun p => p.1 = k)).map (fun p => p.2)

/-- `sort_metadata`: each priority header is popped (if present) in the fixed
order, then the remaining headers follow in insertion order. -/
def sort_metadata (ml : List (String × String)) : List (String × String) :=
  (headerOrder.filterMap (fun k => (lookupMeta k ml).map (fun v => (k, v)))) ++
    ml.filter (fun p => ¬ p.1 ∈ headerOrder)

/-- The header block of `UltrastarSong.__str__`: one `#TAG:VALUE` line per
header, in `sort_metadata` order. -/
def headerText (ml : List (String × String)) : String :=
  String.join ((sort_metadata ml).map (fun p => "#" ++ p.1 ++ ":" ++ p.2 ++ "\n"))

/-- C5 counterexample: the key set `{AAA ↦ 1, BBB ↦ 2}` (neither key is in
the priority list) inserted in the two possible orders serializes to two
different header blocks — the unrecognized remainder keeps insertion order. -/
theorem header_insertion_order_counterexample :
    headerText (addAllMetadata [("AAA", "1"), ("BBB", "2")])
      ≠ headerText (addAllMetadata [("BBB", "2"), ("AAA", "1")]) := by decide

theorem addAllMetadata_go (l : List (String × String)) :
    ∀ ml : List (String × String), ((ml ++ l).map Prod.fst).Nodup →
      l.foldl (fun ml p => add_metadata ml p.1 p.2) ml = ml ++ l := by
  induction l with
  | nil => intro ml h; simp
  | cons kv l ih =>
    intro ml h
    have hmap : ((ml ++ kv :: l).map Prod.fst) = ml.map Prod.fst ++ kv.1 :: l.map Prod.fst := by
      simp
    rw [hmap] at h
    rw [List.nodup_append] at h
    have hnotin : ¬ kv.1 ∈ ml.map Prod.fst := by
      intro hmem
      exact h.2.2 hmem (List.mem_cons_self _ _)
    have hany : ml.any (fun p => p.1 = kv.1) = false := by
      rw [List.any_eq_false]
      intro p hp
      simp only [decide_eq_true_eq]
      intro hpk
      exact hnotin (hpk ▸ List.mem_map_of_mem Prod.fst hp)
    simp only [List.foldl_cons]
    have hstep : add_metadata ml kv.1 kv.2 = ml ++ [kv] := by
      unfold add_metadata
      rw [hany]
      simp
    rw [hstep]
    rw [ih (ml ++ [kv]) (by
      have : (ml ++ [kv]) ++ l = ml ++ kv :: l := by simp
      rw [this, hmap]
      rw [List.nodup_append]
      exact h)]
    simp

/-- With pairwise-distinct keys, dict insertion from empty reproduces the
list itself. -/
theorem addAllMetadata_eq_self {l : List (String × String)}
    (h : (l.map Prod.fst).Nodup) : addAllMetadata l = l := by
  have := addAllMetadata_go l [] (by simpa using h)
  simpa [addAllMetadata] using this

theorem lookupMeta_perm {l1 l2 : List (String × String)} (h : l1.Perm l2)
    (hnd : (l1.map Prod.fst).Nodup) (k : String) : lookupMeta k l1 = lookupMeta k l2 := by
  induction h with
  | nil => rfl
  | cons x h ih =>
    by_cases hx : x.1 = k
    · unfold lookupMeta
      rw [List.find?_cons_of_pos _ (by simpa using hx), List.find?_cons_of_pos _ (by simpa using hx)]
    · unfold lookupMeta at *
      rw [List.find?_cons_of_neg _ (by simpa using hx), List.find?_cons_of_neg _ (by simpa using hx)]
      exact ih (by simpa using (List.nodup_cons.mp (by simpa using hnd)).2)
  | swap x y l =>
    by_cases hy : y.1 = k
    · by_cases hx : x.1 = k
      · exfalso
        have hnin : ¬ y.1 ∈ (x :: l).map Prod.fst := (List.nodup_cons.mp (by simpa using hnd)).1
        exact hnin (by simp [hy, hx])
      · unfold lookupMeta
        rw [List.find?_cons_of_pos _ (by simpa using hy),
          List.find?_cons_of_neg _ (by simpa using hx),
          List.find?_cons_of_pos _ (by simpa using hy)]
    · by_cases hx : x.1 = k
      · unfold lookupMeta
        rw [List.find?_cons_of_neg _ (by simpa using hy),
          List.find?_cons_of_pos _ (by simpa using hx),
          List.find?_cons_of_pos _ (by simpa using hx)]
      · unfold lookupMeta
        rw [List.find?_cons_of_neg _ (by simpa using hy),
          List.find?_cons_of_neg _ (by simpa using hx),
          List.find?_cons_of_neg _ (by simpa using hx),
          List.find?_cons_of_neg _ (by simpa using hy)]
  | trans h1 h2 ih1 ih2 =>
    rw [ih1 hnd, ih2 (((h1.map Prod.fst).nodup_iff).mp hnd)]

/-- C5 (amended): header serialization is insertion-order independent for
every key set drawn from the recognized priority list: inserting the same
recognized, pairwise-distinct key/value pairs via `add_metadata` in any order
produces byte-identical header output.  (For keys outside the priority list
the output preserves insertion order, see the counterexample.) -/
theorem headerText_insertion_order_independent (l1 l2 : List (String × String))
    (hperm : l1.Perm l2) (hnodup : (l1.map Prod.fst).Nodup)
    (hrec : ∀ p ∈ l1, p.1 ∈ headerOrder) :
    headerText (addAllMetadata l1) = headerText (addAllMetadata l2) := by
  have hnodup2 : (l2.map Prod.fst).Nodup := ((hperm.map Prod.fst).nodup_iff).mp hnodup
  rw [addAllMetadata_eq_self hnodup, addAllMetadata_eq_self hnodup2]
  unfold headerText sort_metadata
  have hf1 : l1.filter (fun p => ¬ p.1 ∈ headerOrder) = [] := by
    rw [List.filter_eq_nil]
    intro p hp
    simp only [decide_eq_true_eq]
    intro hcon
    exact hcon (hrec p hp)
  have hf2 : l2.filter (fun p => ¬ p.1 ∈ headerOrder) = [] := by
    rw [List.filter_eq_nil]
    intro p hp
    simp only [decide_eq_true_eq]
    intro hcon
    exact hcon (hrec p (hperm.mem_iff.mpr hp))
  rw [hf1, hf2]
  have hlk : ∀ k, lookupMeta k l1 = lookupMeta k l2 := lookupMeta_perm hperm hnodup
  have : (headerOrder.filterMap (fun k => (lookupMeta k l1).map (fun v => (k, v))))
      = (headerOrder.filterMap (fun k => (lookupMeta k l2).map (fun v => (k, v)))) := by
    apply List.filterMap_congr
    intro k _
    rw [hlk k]
  rw [this]

theorem headerText_insertion_order_independent_witness :
    headerText (addAllMetadata [("TITLE", "t"), ("ARTIST", "a")])
      = headerText (addAllMetadata [("ARTIST", "a"), ("TITLE", "t")]) :=
  headerText_insertion_order_independent _ _
    (List.Perm.swap ("ARTIST", "a") ("TITLE", "t") []) (by decide) (by decide)

/-! ## `NoteLine.__init__` validation (C7) -/

/-- C7 counterexample: the claim allows the `duration == 0` exception only
when pitch and text are still present; the code raises no error for
`NoteLine(':', s, duration=0, pitch=None, text=None)` — it merely warns. -/
theorem noteLineInit_zero_duration_counterexample :
    noteLineInit ":" (some 0) none none = .warned ∧ NoteInit.warned ≠ .error := by decide

/-- C7 (amended): constructing a non-linebreak `NoteLine` raises an error
exactly when any of duration, pitch, or text is absent, pitch is `0`, or text
is empty — except that whenever duration is exactly `0` the note is accepted
with a warning regardless of whether pitch or text are present; all of
duration, pitch, text present and truthy constructs silently. -/
theorem noteLineInit_characterization (nt : String) (d p : Option ℤ) (t : Option String)
    (hnt : nt ≠ "-") :
    (d = some 0 → noteLineInit nt d p t = .warned) ∧
    ((d = none ∨ p = none ∨ p = some 0 ∨ t = none ∨ t = some "") → d ≠ some 0 →
      noteLineInit nt d p t = .error) ∧
    ((∃ dv, d = some dv ∧ dv ≠ 0) → (∃ pv, p = some pv ∧ pv ≠ 0) →
      (∃ tv, t = some tv ∧ tv ≠ "") → noteLineInit nt d p t = .ok) := by
  refine ⟨?_, ?_, ?_⟩
  · intro hd
    subst hd
    unfold noteLineInit
    rw [if_pos ⟨hnt, by simp [truthyInt]⟩, if_pos rfl]
  · intro hcase hd0
    unfold noteLineInit
    rw [if_pos, if_neg hd0]
    refine ⟨hnt, ?_⟩
    rintro ⟨h1, h2, h3⟩
    rcases hcase with h | h | h | h | h
    · subst h; simp [truthyInt] at h1
    · subst h; simp [truthyInt] at h2
    · subst h; simp [truthyInt] at h2
    · subst h; simp [truthyStr] at h3
    · subst h; simp [truthyStr] at h3
  · rintro ⟨dv, rfl, hdv⟩ ⟨pv, rfl, hpv⟩ ⟨tv, rfl, htv⟩
    unfold noteLineInit
    rw [if_neg]
    rintro ⟨_, hcon⟩
    exact hcon ⟨by simp [truthyInt, hdv], by simp [truthyInt, hpv], by simp [truthyStr, htv]⟩

theorem noteLineInit_characterization_witness :
    noteLineInit ":" (some 0) (some 5) (some "x") = .warned :=
  (noteLineInit_characterization ":" (some 0) (some 5) (some "x") (by decide)).1 rfl

/-! ## Subtitle lines and the individual overlap resolver
(`KaraLuxer._filter_overlapping_lines_individual`)

A subtitle event: start/end times (an arbitrary linearly ordered stamp,
embedded as `ℤ`), style name, raw text. -/

structure Event where
  start : ℤ
  end_ : ℤ
  style : String
  text : String
deriving DecidableEq

/-- The inner `for j in range(i+1, len(lines))` loop: successive lines are
appended to the group while the ANCHOR line's end exceeds their start
(`current_line.end > selected_line.start`); the scan stops at the first line
that does not overlap the anchor. -/
def buildGroup (cur : Event) : List Event → List Event
  | [] => []
  | l :: rest => if cur.end_ > l.start then l :: buildGroup cur rest else []

/-- One scan of the outer `for i in range(len(lines))` loop: the first group
of size > 1 (anchor plus at least one follower), if any. -/
def firstOverlapGroup : List Event → Option (List Event)
  | [] => none
  | l :: rest =>
    if buildGroup l rest = [] then firstOverlapGroup rest
    else some (l :: buildGroup l rest)

/-- The `while overlap_exists` fixed-point loop.  Each iteration removes the
line chosen by the caller's decision function from the first group found, or
stops when a full scan finds no group.  Python terminates because every
iteration removes one element; `fuel = lines.length` steps always suffice, so
the loop is embedded with that fuel. -/
def filterIndividualGo (f : List Event → Event) : ℕ → List Event → List Event
  | 0, lines => lines
  | fuel + 1, lines =>
    match firstOverlapGroup lines with
    | none => lines
    | some g => filterIndividualGo f fuel (lines.erase (f g))

def filter_overlapping_lines_individual (f : List Event → Event)
    (lines : List Event) : List Event :=
  filterIndividualGo f lines.length lines

theorem buildGroup_sublist (cur : Event) : ∀ l : List Event, (buildGroup cur l).Sublist l
  | [] => List.nil_sublist []
  | e :: rest => by
      unfold buildGroup
      split
      · exact List.Sublist.cons₂ e (buildGroup_sublist cur rest)
      · exact List.nil_sublist _

theorem firstOverlapGroup_sublist :
    ∀ lines G, firstOverlapGroup lines = some G → G.Sublist lines
  | [], G => by intro h; cases h
  | l :: rest, G => by
      intro h
      unfold firstOverlapGroup at h
      split at h
      · exact (firstOverlapGroup_sublist rest G h).cons l
      · have hG := Option.some.inj h
        rw [← hG]
        exact List.Sublist.cons₂ l (buildGroup_sublist l rest)

theorem firstOverlapGroup_ne_nil :
    ∀ lines G, firstOverlapGroup lines = some G → G ≠ []
  | [], G => by intro h; cases h
  | l :: rest, G => by
      intro h
      unfold firstOverlapGroup at h
      split at h
      · exact firstOverlapGroup_ne_nil rest G h
      · have hG := Option.some.inj h
        rw [← hG]
        exact List.cons_ne_nil _ _

theorem filterGo_sublist (f : List Event → Event) :
    ∀ (fuel : ℕ) (lines : List Event), (filterIndividualGo f fuel lines).Sublist lines
  | 0, lines => List.Sublist.refl lines
  | fuel + 1, lines => by
      unfold filterIndividualGo
      cases hg : firstOverlapGroup lines with
      | none => exact List.Sublist.refl lines
      | some g =>
        exact (filterGo_sublist f fuel (lines.erase (f g))).trans (List.erase_sublist _ _)

theorem filterGo_of_none {f : List Event → Event} {lines : List Event}
    (h : firstOverlapGroup lines = none) (fuel : ℕ) :
    filterIndividualGo f fuel lines = lines := by
  cases fuel with
  | zero => rfl
  | succ fuel => simp [filterIndividualGo, h]

/-- With a well-behaved decision function and enough fuel, the loop reaches a
state in which a full scan finds no group of size > 1. -/
theorem filterGo_noGroup (f : List Event → Event) (hf : ∀ g, g ≠ [] → f g ∈ g) :
    ∀ (fuel : ℕ) (lines : List Event), lines.length ≤ fuel →
      firstOverlapGroup (filterIndividualGo f fuel lines) = none
  | 0, lines, h => by
      have hnil : lines = [] := List.eq_nil_of_length_eq_zero (Nat.le_zero.mp h)
      subst hnil
      rfl
  | fuel + 1, lines, h => by
      unfold filterIndividualGo
      cases hg : firstOverlapGroup lines with
      | none => exact hg
      | some g =>
        have hgne : g ≠ [] := firstOverlapGroup_ne_nil _ _ hg
        have hmem : f g ∈ lines :=
          (firstOverlapGroup_sublist _ _ hg).subset (hf g hgne)
        have hlen : (lines.erase (f g)).length ≤ fuel := by
          rw [List.length_erase_of_mem hmem]
          omega
        exact filterGo_noGroup f hf fuel _ hlen

theorem noGroup_chain :
    ∀ lines, firstOverlapGroup lines = none →
      List.Chain' (fun a b : Event => a.end_ ≤ b.start) lines
  | [], _ => List.chain'_nil
  | [l], _ => List.chain'_singleton l
  | l :: l2 :: rest, h => by
      unfold firstOverlapGroup at h
      split at h
      · rename_i hbg
        unfold buildGroup at hbg
        split at hbg
        · cases hbg
        · rename_i hcond
          exact List.Chain'.cons (by omega) (noGroup_chain (l2 :: rest) h)
      · cases h

theorem chain_sorted_pairwise :
    ∀ l : List Event, List.Sorted (fun a b : Event => a.start ≤ b.start) l →
      List.Chain' (fun a b : Event => a.end_ ≤ b.start) l →
      List.Pairwise (fun a b : Event => a.end_ ≤ b.start) l
  | [], _, _ => List.Pairwise.nil
  | l :: rest, hs, hc => by
      have hs' := List.sorted_cons.mp hs
      refine List.Pairwise.cons ?_ (chain_sorted_pairwise rest hs'.2 hc.tail)
      intro b hb
      cases rest with
      | nil => cases hb
      | cons r rest' =>
        have h1 : l.end_ ≤ r.start := (List.chain'_cons.mp hc).1
        have h2 : r.start ≤ b.start := by
          rcases List.mem_cons.mp hb with hb' | hb'
          · rw [hb']
          · exact (List.sorted_cons.mp hs'.2).1 b hb'
        omega

/-- C3: Individual-policy overlap resolution, for every start-time-sorted
input list and every decision function that returns a member of the group it
is given, returns a subsequence of the input in which no line overlaps any
other (stated as: in list order, each line ends no later than every later
line starts); consequently re-running the resolver on its own output is a
no-op — a full scan finds no group of size > 1 and the list is returned
unchanged. -/
theorem filter_individual_correct (lines : List Event) (f : List Event → Event)
    (hsort : List.Sorted (fun a b : Event => a.start ≤ b.start) lines)
    (hf : ∀ g, g ≠ [] → f g ∈ g) :
    (filter_overlapping_lines_individual f lines).Sublist lines ∧
    List.Pairwise (fun a b : Event => a.end_ ≤ b.start)
      (filter_overlapping_lines_individual f lines) ∧
    firstOverlapGroup (filter_overlapping_lines_individual f lines) = none ∧
    filter_overlapping_lines_individual f
        (filter_overlapping_lines_individual f lines)
      = filter_overlapping_lines_individual f lines := by
  have hsub : (filter_overlapping_lines_individual f lines).Sublist lines :=
    filterGo_sublist f lines.length lines
  have hnone : firstOverlapGroup (filter_overlapping_lines_individual f lines) = none :=
    filterGo_noGroup f hf lines.length lines (le_refl _)
  have hsorted' : List.Sorted (fun a b : Event => a.start ≤ b.start)
      (filter_overlapping_lines_individual f lines) :=
    List.Pairwise.sublist hsub hsort
  refine ⟨hsub, chain_sorted_pairwise _ hsorted' (noGroup_chain _ hnone), hnone, ?_⟩
  unfold filter_overlapping_lines_individual
  exact filterGo_of_none hnone _

def witnessDecision (g : List Event) : Event :=
  g.headD ⟨0, 0, "", ""⟩

theorem filter_individual_correct_witness :
    List.Pairwise (fun a b : Event => a.end_ ≤ b.start)
      (filter_overlapping_lines_individual witnessDecision
        [⟨0, 10, "s", "a"⟩, ⟨5, 20, "s", "b"⟩]) :=
  (filter_individual_correct [⟨0, 10, "s", "a"⟩, ⟨5, 20, "s", "b"⟩] witnessDecision
    (by decide)
    (fun g hg => by
      cases g with
      | nil => exact absurd rfl hg
      | cons a t => exact List.mem_cons_self a t)).2.1

/-! ## Which group is passed to the decision function (C9) -/

/-- Spec-side definition, following the claim's words: the transitively
chained overlap run — each line's end time exceeds the NEXT line's start
time, chained across the run. -/
def chainRun (a : Event) : List Event → List Event
  | [] => []
  | b :: rest => if a.end_ > b.start then b :: chainRun b rest else []

/-- Spec-side definition: first maximal transitively-chained group of
size > 1. -/
def firstChainGroup : List Event → Option (List Event)
  | [] => none
  | a :: rest =>
    if chainRun a rest = [] then firstChainGroup rest
    else some (a :: chainRun a rest)

def evA : Event := ⟨0, 10, "s", "A"⟩
def evB : Event := ⟨5, 20, "s", "B"⟩
def evC : Event := ⟨12, 25, "s", "C"⟩

/-- C9 counterexample: with lines A = [0,10), B = [5,20), C = [12,25) the
code's scan hands the decision function the group [A, B] (C is compared
against A's end, 10 ≤ 12), while the claimed transitive chaining would give
[A, B, C] (B's end 20 exceeds C's start 12). -/
theorem firstOverlapGroup_not_transitive_counterexample :
    firstOverlapGroup [evA, evB, evC] = some [evA, evB] ∧
    firstChainGroup [evA, evB, evC] = some [evA, evB, evC] ∧
    ([evA, evB] : List Event) ≠ [evA, evB, evC] := by decide

theorem buildGroup_eq_takeWhile (cur : Event) :
    ∀ l : List Event, buildGroup cur l = l.takeWhile (fun b => decide (cur.end_ > b.start))
  | [] => rfl
  | e :: rest => by
      unfold buildGroup
      rw [List.takeWhile_cons]
      by_cases h : cur.end_ > e.start
      · simp only [if_pos h, decide_eq_true_eq, h, decide_True]
        rw [buildGroup_eq_takeWhile cur rest]
      · simp [h]

theorem dropWhile_head_false (p : Event → Bool) :
    ∀ (l : List Event) (x : Event), (l.dropWhile p).head? = some x → p x = false
  | [], x => by intro h; cases h
  | e :: rest, x => by
      intro h
      rw [List.dropWhile_cons] at h
      split at h
      · exact dropWhile_head_false p rest x h
      · rename_i hc
        have hex : e = x := by simpa using h
        subst hex
        rw [Bool.not_eq_true] at hc
        exact hc

/-- C9 (amended): whenever the individual-policy resolver invokes the
caller's decision function, the group it passes is the first maximal
anchored run of the current list: a run of consecutive lines starting at some
anchor line `a`, of size > 1, containing exactly the consecutive successors
whose start time is below the ANCHOR's end time (not chained transitively);
the run is maximal (the next line, if any, starts at or after `a`'s end), and
no earlier line of the list starts such a run. -/
theorem firstOverlapGroup_characterization :
    ∀ (lines G : List Event), firstOverlapGroup lines = some G →
      ∃ pre a rest, lines = pre ++ a :: rest ∧
        G = a :: rest.takeWhile (fun b => decide (a.end_ > b.start)) ∧
        rest.takeWhile (fun b => decide (a.end_ > b.start)) ≠ [] ∧
        (∀ nxt, (rest.dropWhile (fun b => decide (a.end_ > b.start))).head? = some nxt →
          a.end_ ≤ nxt.start) ∧
        (∀ pre1 x rest1, pre = pre1 ++ x :: rest1 →
          (rest1 ++ a :: rest).takeWhile (fun b => decide (x.end_ > b.start)) = [])
  | [], G => by intro h; cases h
  | l :: rest, G => by
      intro h
      unfold firstOverlapGroup at h
      split at h
      · rename_i hbg
        obtain ⟨pre, a, r, hsplit, hG, hne, hmax, hpre⟩ :=
          firstOverlapGroup_characterization rest G h
        refine ⟨l :: pre, a, r, by rw [hsplit]; rfl, hG, hne, hmax, ?_⟩
        intro pre1 x rest1 hpre1
        cases pre1 with
        | nil =>
          injection hpre1 with h1 h2
          subst h1
          subst h2
          rw [← hsplit, ← buildGroup_eq_takeWhile]
          exact hbg
        | cons y pre1' =>
          injection hpre1 with h1 h2
          exact hpre pre1' x rest1 h2
      · rename_i hbg
        have hG := Option.some.inj h
        refine ⟨[], l, rest, rfl, ?_, ?_, ?_, ?_⟩
        · rw [← hG, buildGroup_eq_takeWhile]
        · rw [← buildGroup_eq_takeWhile]
          exact hbg
        · intro nxt hn
          have hfalse := dropWhile_head_false _ rest nxt hn
          simp only [decide_eq_false_iff_not, gt_iff_lt, not_lt] at hfalse
          exact hfalse
        · intro pre1 x rest1 hpre1
          cases pre1 <;> simp at hpre1

theorem firstOverlapGroup_characterization_witness :
    ∃ pre a rest, [evA, evB, evC] = pre ++ a :: rest ∧
      [evA, evB] = a :: rest.takeWhile (fun b => decide (a.end_ > b.start)) ∧
      rest.takeWhile (fun b => decide (a.end_ > b.start)) ≠ [] ∧
      (∀ nxt, (rest.dropWhile (fun b => decide (a.end_ > b.start))).head? = some nxt →
        a.end_ ≤ nxt.start) ∧
      (∀ pre1 x rest1, pre = pre1 ++ x :: rest1 →
        (rest1 ++ a :: rest).takeWhile (fun b => decide (x.end_ > b.start)) = []) :=
  firstOverlapGroup_characterization [evA, evB, evC] [evA, evB] (by decide)

/-! ## Duet split (`KaraLuxer._separate_duet_parts`, C6) -/

/-- `_get_styles_in_lines`: a Python dict from style name to line count,
embedded as an insertion-ordered association list (`setdefault` appends a new
style at the end; an existing style's count is incremented in place). -/
def get_styles_in_lines (lines : List Event) : List (String × ℕ) :=
  lines.foldl (fun styles l =>
    if styles.any (fun p => p.1 = l.style) then
      styles.map (fun p => if p.1 = l.style then (p.1, p.2 + 1) else p)
    else styles ++ [(l.style, 1)]) []

/-- `_get_lines_in_style`. -/
def get_lines_in_style (style : String) (lines : List Event) : List Event :=
  lines.filter (fun l => l.style = style)

/-- The `while (len(styles) > 2)` loop of `_separate_duet_parts`: the caller
discards whole styles until at most two remain.  Each iteration of the Python
loop removes every entry of the picked style; with a decision function that
picks a present style, `styles.length` steps of fuel always suffice. -/
def discardStyles (pick : List (String × ℕ) → String) :
    ℕ → List (String × ℕ) → List (String × ℕ)
  | 0, styles => styles
  | fuel + 1, styles =>
    if 2 < styles.length then
      discardStyles pick fuel (styles.filter (fun p => ¬ p.1 = pick styles))
    else styles

/-- Result of `_separate_duet_parts`: either the warned single-track
fallback `(lines,)`, or the two duet parts (with the `P1`/`P2` metadata tags
recording the two style names). -/
inductive DuetResult where
  | single (lines : List Event)
  | duet (p1tag p2tag : String) (p1 p2 : List Event)
deriving DecidableEq

/-- `_separate_duet_parts`.  `none` models the uncaught `IndexError` raised
by `styles[0][0]` / `styles[1][0]` when fewer than two styles remain after
the discard loop (in particular when the input has zero styles, since the
`len(styles) == 1` fallback does not cover that case). -/
def separate_duet_parts (pick : List (String × ℕ) → String) (lines : List Event) :
    Option DuetResult :=
  let styles := get_styles_in_lines lines
  if styles.length = 1 then some (.single lines)
  else
    match discardStyles pick styles.length styles with
    | s1 :: s2 :: _ => some (.duet s1.1 s2.1 (get_lines_in_style s1.1 lines)
        (get_lines_in_style s2.1 lines))
    | _ => none

/-- C6: evaluation at the failing input.  With exactly one distinct style the
code warns and falls back to a single non-duet track, as the claim says; but
with ZERO lines (zero distinct styles) the claim fails on the code: the
`len(styles) == 1` guard does not fire and `styles[0][0]` raises an uncaught
`IndexError` (modelled by `none`), aborting the job instead of warning. -/
theorem separate_duet_zero_styles_fails :
    separate_duet_parts (fun _ => "") ([] : List Event) = none ∧
    separate_duet_parts (fun _ => "") [⟨0, 10, "A", "t"⟩]
      = some (.single [⟨0, 10, "A", "t"⟩]) := by decide

/-! ## Syllable extraction (`SYLLABLE_REGEX` and the loop in `_convert_lines`)

The first regex alternative — "timed syllable with trailing prose and no
other markup" — is
`\{\\(?:k|kf|ko|K)[0-9.]+(?:\\[0-9A-z&]+)*\}[A-zÀ-ÿ _.\-,!"']+\s*`.
The claims quantify over subtitle lines consisting only of such spans with no
extra inline tags before the closing brace; on that domain `re.findall` takes
the first alternative at each span start and the other alternatives never
fire, so the scan is embedded specialized to that alternative. -/

def lbrace : Char := Char.ofNat 123

def rbrace : Char := Char.ofNat 125

/-- The timing-value character class `[0-9.]`. -/
def isTimingChar (c : Char) : Bool :=
  decide (('0' ≤ c ∧ c ≤ '9') ∨ c = '.')

/-- The literal-text character class `[A-zÀ-ÿ _.\-,!"']` (note that `A-z`
also covers the ASCII range between `Z` and `a`). -/
def isKTextChar (c : Char) : Bool :=
  decide (('A' ≤ c ∧ c ≤ 'z') ∨ ('À' ≤ c ∧ c ≤ 'ÿ') ∨
    c = ' ' ∨ c = '_' ∨ c = '.' ∨ c = '-' ∨ c = ',' ∨ c = '!' ∨ c = '"' ∨ c = '\'')

/-- The four timing-tag aliases `(?:k|kf|ko|K)`. -/
inductive KTag where
  | k
  | kf
  | ko
  | kUp
deriving DecidableEq

def KTag.render : KTag → List Char
  | .k => ['k']
  | .kf => ['k', 'f']
  | .ko => ['k', 'o']
  | .kUp => ['K']

/-- A grammar-1 span `{\kNN}text`: a karaoke timing tag immediately followed
by literal text, with no other markup. -/
structure G1Span where
  tag : KTag
  timing : List Char
  text : List Char
deriving DecidableEq

abbrev G1Span.WF (s : G1Span) : Prop :=
  s.timing ≠ [] ∧ (∀ c ∈ s.timing, isTimingChar c = true) ∧
  s.text ≠ [] ∧ (∀ c ∈ s.text, isKTextChar c = true)

def G1Span.render (s : G1Span) : List Char :=
  lbrace :: '\\' :: (s.tag.render ++ s.timing ++ rbrace :: s.text)

def renderG1Line (spans : List G1Span) : List Char :=
  (spans.map G1Span.render).join

/-- Matching of the tag-letter alternation `(?:k|kf|ko|K)` with the regex
engine's backtracking: the single-letter `k` branch is kept only when a
timing character follows (otherwise the engine backtracks to `kf`/`ko`). -/
def matchKTag : List Char → Option (List Char)
  | 'k' :: c2 :: rest =>
    if isTimingChar c2 then some (c2 :: rest)
    else if c2 = 'f' ∨ c2 = 'o' then some rest
    else none
  | 'K' :: rest => some rest
  | _ => none

/-- After the timing characters: expect the closing brace, then the
non-empty literal-text run `[A-zÀ-ÿ _.\-,!"']+` (which, being greedy, also
absorbs the trailing spaces that `\s*` would otherwise take). -/
def matchBrace (timing : List Char) : List Char → Option ((List Char × List Char) × List Char)
  | [] => none
  | b :: afterBrace =>
    if b = rbrace then
      if afterBrace.takeWhile isKTextChar = [] then none
      else some ((timing, afterBrace.takeWhile isKTextChar), afterBrace.dropWhile isKTextChar)
    else none

/-- After the tag letters: the non-empty timing run `[0-9.]+`, then the
closing brace and text. -/
def matchAfterTag (afterTag : List Char) : Option ((List Char × List Char) × List Char) :=
  if afterTag.takeWhile isTimingChar = [] then none
  else matchBrace (afterTag.takeWhile isTimingChar) (afterTag.dropWhile isTimingChar)

/-- Matcher for the first `SYLLABLE_REGEX` alternative at one position, on
the grammar-1 domain.  Returns the timing characters — equal, on this domain,
to what the code obtains from the match by `split('}')` followed by stripping
every non-`[0-9.]` character — the literal text, and the rest of the input. -/
def matchG1 (cs : List Char) : Option ((List Char × List Char) × List Char) :=
  match cs with
  | c1 :: c2 :: rest =>
    if c1 = lbrace ∧ c2 = '\\' then (matchKTag rest).bind matchAfterTag
    else none
  | _ => none

/-- `re.findall` over the line: scan left to right, at each position try the
alternative; on failure advance one character.  A match consumes at least one
character, so fuel `cs.length` always suffices. -/
def scanG1 : ℕ → List Char → List (List Char × List Char)
  | 0, _ => []
  | _, [] => []
  | fuel + 1, c :: cs =>
    match matchG1 (c :: cs) with
    | some (pr, rest) => pr :: scanG1 fuel rest
    | none => scanG1 fuel cs

def digitsVal (cs : List Char) : ℕ :=
  cs.foldl (fun a c => 10 * a + (c.toNat - 48)) 0

/-- Python `float()` of a `[0-9.]+` literal, as an exact numerator /
denominator pair; `none` when the literal is malformed and `float` raises. -/
def parseTiming (cs : List Char) : Option (ℤ × ℤ) :=
  let ip := cs.takeWhile (fun c => ¬ c = '.')
  match cs.dropWhile (fun c => ¬ c = '.') with
  | [] => if ip = [] then none else some ((digitsVal ip : ℤ), 1)
  | _ :: frac =>
    if frac.any (fun c => c = '.') then none
    else if ip = [] ∧ frac = [] then none
    else some ((digitsVal ip : ℤ) * (10 : ℤ) ^ frac.length + (digitsVal frac : ℤ),
      (10 : ℤ) ^ frac.length)

/-- `round(float(timing))`; `0` stands in for the `ValueError` raised on a
malformed literal (outside every claim's domain). -/
def timingValue (cs : List Char) : ℤ :=
  match parseTiming cs with
  | some (num, den) => pyRoundDiv num den
  | none => 0

/-- The syllable list built by the loop over
`re.findall(SYLLABLE_REGEX, line.text)` in `_convert_lines`: each match of
the first alternative contributes `(round(timing_number), syllable_text)`. -/
def extractSyllables (cs : List Char) : List (ℤ × Option String) :=
  (scanG1 cs.length cs).map (fun pr => (timingValue pr.1, some (String.mk pr.2)))

/-- `re.sub(r'\{(.*?)\}', '', text)` as a left-to-right scan: after an
opening brace the characters are buffered until the nearest closing brace
(the non-greedy `.*?`), and the pair is dropped; a `{` never followed by `}`
matches nothing and is kept verbatim (buffer flushed at the end). -/
def stripMarkupGo : List Char → Option (List Char) → List Char
  | [], none => []
  | [], some buf => lbrace :: buf.reverse
  | c :: rest, none =>
    if c = lbrace then stripMarkupGo rest (some [])
    else c :: stripMarkupGo rest none
  | c :: rest, some buf =>
    if c = rbrace then stripMarkupGo rest none
    else stripMarkupGo rest (some (c :: buf))

def stripMarkup (cs : List Char) : List Char := stripMarkupGo cs none

theorem takeWhile_append_all {α : Type} {p : α → Bool} :
    ∀ {xs : List α}, (∀ c ∈ xs, p c = true) →
      ∀ ys, (xs ++ ys).takeWhile p = xs ++ ys.takeWhile p
  | [], _, ys => rfl
  | x :: xs, h, ys => by
      rw [List.cons_append, List.takeWhile_cons_of_pos (h x (List.mem_cons_self x xs)),
        takeWhile_append_all (fun c hc => h c (List.mem_cons_of_mem x hc)) ys]
      rfl

theorem dropWhile_append_all {α : Type} {p : α → Bool} :
    ∀ {xs : List α}, (∀ c ∈ xs, p c = true) →
      ∀ ys, (xs ++ ys).dropWhile p = ys.dropWhile p
  | [], _, ys => rfl
  | x :: xs, h, ys => by
      rw [List.cons_append, List.dropWhile_cons_of_pos (h x (List.mem_cons_self x xs)),
        dropWhile_append_all (fun c hc => h c (List.mem_cons_of_mem x hc)) ys]

theorem takeWhile_timing_rbrace (l : List Char) :
    (rbrace :: l).takeWhile isTimingChar = [] := rfl

theorem dropWhile_timing_rbrace (l : List Char) :
    (rbrace :: l).dropWhile isTimingChar = rbrace :: l := rfl

theorem takeWhile_ktext_lbrace (l : List Char) :
    (lbrace :: l).takeWhile isKTextChar = [] := rfl

theorem dropWhile_ktext_lbrace (l : List Char) :
    (lbrace :: l).dropWhile isKTextChar = lbrace :: l := rfl

/-- The tail that follows one span in a grammar-1-only line: empty, or the
next span's opening brace. -/
def GoodRest (rest : List Char) : Prop := rest = [] ∨ ∃ t, rest = lbrace :: t

theorem takeWhile_ktext_goodRest {rest : List Char} (h : GoodRest rest) :
    rest.takeWhile isKTextChar = [] := by
  rcases h with rfl | ⟨t, rfl⟩
  · rfl
  · exact takeWhile_ktext_lbrace t

theorem dropWhile_ktext_goodRest {rest : List Char} (h : GoodRest rest) :
    rest.dropWhile isKTextChar = rest := by
  rcases h with rfl | ⟨t, rfl⟩
  · rfl
  · exact dropWhile_ktext_lbrace t

theorem matchKTag_render (tag : KTag) {timing : List Char} (htne : timing ≠ [])
    (htall : ∀ c ∈ timing, isTimingChar c = true) (tail : List Char) :
    matchKTag (tag.render ++ (timing ++ tail)) = some (timing ++ tail) := by
  obtain ⟨tc, timing', rfl⟩ := List.exists_cons_of_ne_nil htne
  have htc : isTimingChar tc = true := htall tc (List.mem_cons_self _ _)
  cases tag with
  | k =>
      show matchKTag ('k' :: tc :: (timing' ++ tail)) = _
      simp [matchKTag, htc]
  | kf =>
      show matchKTag ('k' :: 'f' :: (tc :: timing' ++ tail)) = _
      simp [matchKTag]
      decide
  | ko =>
      show matchKTag ('k' :: 'o' :: (tc :: timing' ++ tail)) = _
      simp [matchKTag]
      decide
  | kUp =>
      show matchKTag ('K' :: (tc :: timing' ++ tail)) = _
      simp [matchKTag]

theorem matchG1_render {s : G1Span} (hWF : s.WF) {rest : List Char} (hrest : GoodRest rest) :
    matchG1 (s.render ++ rest) = some ((s.timing, s.text), rest) := by
  obtain ⟨htne, htall, hxne, hxall⟩ := hWF
  have hshape : s.render ++ rest
      = lbrace :: '\\' :: (s.tag.render ++ (s.timing ++ (rbrace :: (s.text ++ rest)))) := by
    simp [G1Span.render]
  rw [hshape]
  simp only [matchG1, and_self, if_true]
  rw [matchKTag_render s.tag htne htall (rbrace :: (s.text ++ rest)), Option.some_bind]
  unfold matchAfterTag
  rw [takeWhile_append_all htall, takeWhile_timing_rbrace, List.append_nil]
  rw [if_neg htne]
  rw [dropWhile_append_all htall, dropWhile_timing_rbrace]
  simp only [matchBrace, if_pos rfl]
  rw [takeWhile_append_all hxall, takeWhile_ktext_goodRest hrest, List.append_nil]
  rw [if_neg hxne]
  rw [dropWhile_append_all hxall, dropWhile_ktext_goodRest hrest]
  simp

theorem scanG1_cons_match {fuel : ℕ} {c : Char} {cs : List Char}
    {pr : List Char × List Char} {rest : List Char}
    (h : matchG1 (c :: cs) = some (pr, rest)) :
    scanG1 (fuel + 1) (c :: cs) = pr :: scanG1 fuel rest := by
  simp [scanG1, h]

theorem renderG1Line_cons (s : G1Span) (spans : List G1Span) :
    renderG1Line (s :: spans) = s.render ++ renderG1Line spans := by
  simp [renderG1Line]

theorem renderG1Line_goodRest : ∀ spans : List G1Span, GoodRest (renderG1Line spans)
  | [] => Or.inl rfl
  | s :: spans => by
      right
      refine ⟨'\\' :: (s.tag.render ++ s.timing ++ rbrace :: s.text) ++ renderG1Line spans, ?_⟩
      rw [renderG1Line_cons]
      rfl

/-- `re.findall` on a grammar-1-only line returns exactly its spans, one
`(timing, text)` pair per span. -/
theorem scanG1_render : ∀ (spans : List G1Span), (∀ s ∈ spans, s.WF) →
    ∀ fuel, (renderG1Line spans).length ≤ fuel →
      scanG1 fuel (renderG1Line spans) = spans.map (fun s => (s.timing, s.text))
  | [], _, fuel, _ => by cases fuel <;> rfl
  | s :: spans, h, fuel, hfuel => by
      have hWF := h s (List.mem_cons_self s spans)
      rw [renderG1Line_cons] at hfuel ⊢
      have hlen1 : 1 ≤ s.render.length := by
        simp [G1Span.render]
      cases fuel with
      | zero =>
          exfalso
          rw [List.length_append] at hfuel
          omega
      | succ fuel =>
          have hmatch : matchG1 (s.render ++ renderG1Line spans)
              = some ((s.timing, s.text), renderG1Line spans) :=
            matchG1_render hWF (renderG1Line_goodRest spans)
          have hcs : s.render ++ renderG1Line spans
              = lbrace :: ('\\' :: (s.tag.render ++ s.timing ++ rbrace :: s.text)
                ++ renderG1Line spans) := rfl
          rw [hcs] at hmatch ⊢
          rw [scanG1_cons_match hmatch, List.map_cons]
          congr 1
          refine scanG1_render spans (fun x hx => h x (List.mem_cons_of_mem s hx)) fuel ?_
          rw [List.length_append] at hfuel
          omega

theorem stripMarkupGo_text :
    ∀ {text : List Char}, (∀ c ∈ text, isKTextChar c = true) →
      ∀ rest, stripMarkupGo (text ++ rest) none = text ++ stripMarkupGo rest none
  | [], _, rest => rfl
  | c :: text, h, rest => by
      have hc : isKTextChar c = true := h c (List.mem_cons_self c text)
      have hcl : ¬ c = lbrace := by
        intro he
        rw [he] at hc
        exact absurd hc (by decide)
      show stripMarkupGo (c :: (text ++ rest)) none = _
      simp only [stripMarkupGo, if_neg hcl]
      rw [stripMarkupGo_text (fun x hx => h x (List.mem_cons_of_mem c hx)) rest]
      rfl

theorem stripMarkupGo_buffered :
    ∀ {mid : List Char}, (∀ c ∈ mid, ¬ c = rbrace) →
      ∀ (buf tail : List Char),
        stripMarkupGo (mid ++ rbrace :: tail) (some buf) = stripMarkupGo tail none
  | [], _, buf, tail => by
      show stripMarkupGo (rbrace :: tail) (some buf) = _
      simp [stripMarkupGo]
  | c :: mid, h, buf, tail => by
      have hc : ¬ c = rbrace := h c (List.mem_cons_self c mid)
      show stripMarkupGo (c :: (mid ++ rbrace :: tail)) (some buf) = _
      simp only [stripMarkupGo, if_neg hc]
      exact stripMarkupGo_buffered (fun x hx => h x (List.mem_cons_of_mem c hx)) (c :: buf) tail

theorem ktag_render_ne_rbrace (t : KTag) : ∀ c ∈ t.render, ¬ c = rbrace := by
  cases t <;> intro c hc <;> simp [KTag.render] at hc
  · rw [hc]; decide
  · rcases hc with hc | hc <;> rw [hc] <;> decide
  · rcases hc with hc | hc <;> rw [hc] <;> decide
  · rw [hc]; decide

/-- Stripping the markup of one grammar-1 span leaves exactly its text. -/
theorem stripMarkup_span (s : G1Span) (hWF : s.WF) (rest : List Char) :
    stripMarkupGo (s.render ++ rest) none = s.text ++ stripMarkupGo rest none := by
  obtain ⟨htne, htall, hxne, hxall⟩ := hWF
  have hmid : ∀ c ∈ ('\\' :: (s.tag.render ++ s.timing)), ¬ c = rbrace := by
    intro c hcmem
    rcases List.mem_cons.mp hcmem with hc | hc
    · rw [hc]; decide
    · rcases List.mem_append.mp hc with hc2 | hc2
      · exact ktag_render_ne_rbrace s.tag c hc2
      · intro he
        have hcc := htall c hc2
        rw [he] at hcc
        exact absurd hcc (by decide)
  have hlb : ∀ l : List Char, stripMarkupGo (lbrace :: l) none = stripMarkupGo l (some []) := by
    intro l
    simp [stripMarkupGo]
  have hstep : stripMarkupGo (s.render ++ rest) none
      = stripMarkupGo (('\\' :: (s.tag.render ++ s.timing)) ++ (rbrace :: (s.text ++ rest)))
        (some []) := by
    have hshape : s.render ++ rest
        = lbrace :: (('\\' :: (s.tag.render ++ s.timing)) ++ (rbrace :: (s.text ++ rest))) := by
      simp [G1Span.render]
    rw [hshape, hlb]
  rw [hstep, stripMarkupGo_buffered hmid [] (s.text ++ rest), stripMarkupGo_text hxall rest]

theorem stripMarkup_render : ∀ spans : List G1Span, (∀ s ∈ spans, s.WF) →
    stripMarkup (renderG1Line spans) = (spans.map G1Span.text).join
  | [], _ => rfl
  | s :: spans, h => by
      unfold stripMarkup
      rw [renderG1Line_cons, stripMarkup_span s (h s (List.mem_cons_self s spans))]
      have hrec := stripMarkup_render spans (fun x hx => h x (List.mem_cons_of_mem s hx))
      unfold stripMarkup at hrec
      rw [hrec]
      simp

theorem extract_texts : ∀ spans : List G1Span,
    ((spans.map (fun s => (s.timing, s.text))).map
        (fun pr => (timingValue pr.1, some (String.mk pr.2)))).filterMap
      (fun pr : ℤ × Option String => pr.2)
      = spans.map (fun s => String.mk s.text)
  | [] => rfl
  | s :: spans => by
      simp only [List.map_cons, List.filterMap_cons]
      rw [extract_texts spans]

theorem strFold_mk : ∀ (ls : List (List Char)) (acc : List Char),
    List.foldl (fun r s => r ++ s) (String.mk acc) (ls.map String.mk)
      = String.mk (acc ++ ls.join)
  | [], acc => by simp
  | l :: ls, acc => by
      rw [List.map_cons, List.foldl_cons]
      have h : String.mk acc ++ String.mk l = String.mk (acc ++ l) := rfl
      rw [h, strFold_mk ls (acc ++ l)]
      simp

theorem strJoin_mk (ls : List (List Char)) :
    String.join (ls.map String.mk) = String.mk ls.join := by
  have h0 : ("" : String) = String.mk [] := rfl
  unfold String.join
  rw [h0, strFold_mk ls []]
  rfl

/-- C8: For every subtitle line whose text consists only of grammar-1 spans
(a karaoke timing tag immediately followed by literal text from the permitted
character set), the number of syllables the extractor produces equals the
number of timing tags in the line (each grammar-1 span carries exactly one
timing tag, so that count is the number of spans), and the concatenation of
the extracted syllable texts equals the line text with all bracketed markup
stripped. -/
theorem grammar1_extraction_correct (spans : List G1Span) (h : ∀ s ∈ spans, s.WF) :
    (extractSyllables (renderG1Line spans)).length = spans.length ∧
    String.join ((extractSyllables (renderG1Line spans)).filterMap (fun pr => pr.2))
      = String.mk (stripMarkup (renderG1Line spans)) := by
  have hscan := scanG1_render spans h (renderG1Line spans).length (le_refl _)
  unfold extractSyllables
  rw [hscan]
  constructor
  · simp
  · rw [extract_texts spans, stripMarkup_render spans h]
    have hmm : List.map (fun s : G1Span => String.mk s.text) spans
        = List.map String.mk (List.map G1Span.text spans) := by
      rw [List.map_map]
      rfl
    rw [hmm, strJoin_mk]

theorem grammar1_extraction_correct_witness :
    (extractSyllables (renderG1Line
        [⟨.k, ['5', '0'], ['H', 'e', 'l']⟩, ⟨.k, ['5', '0'], ['l', 'o']⟩])).length = 2 :=
  (grammar1_extraction_correct
    [⟨.k, ['5', '0'], ['H', 'e', 'l']⟩, ⟨.k, ['5', '0'], ['l', 'o']⟩] (by decide)).1

/-! ## Beat conversion (`KaraLuxer._convert_lines`, C1) -/

def KARALUXER_BPS : ℤ := 100

def KARALUXER_BPM : ℤ := 1500

def DEFAULT_PITCH : ℤ := 19

/-- The per-syllable loop of `_convert_lines` for one subtitle line.
`bpm` is the instance's `self.bpm` (the `karaoke_bpm` argument), embedded at
integer values — every claim uses the default 1500, at which the float scale
`current_beat * self.bpm / KARALUXER_BPM` is exact.
`round((duration / 100) * KARALUXER_BPS)` equals the exact rational rounding
of `duration * KARALUXER_BPS / 100`.  A syllable whose text is falsy (`None`
or empty) is a pure gap: it advances the beat cursor and emits no note.  An
emitted note's duration is tweaked to `converted_duration - 1` (only when
`converted_duration > 1`); the cursor advance uses the untweaked value.
After the syllables, a linebreak is emitted at the final cursor. -/
def convertGo (bpm : ℤ) : ℤ → List (ℤ × Option String) → List NoteLine
  | cb, [] => [{ note_type := "-", start_beat := pyRoundDiv (cb * bpm) KARALUXER_BPM }]
  | cb, (dur, otext) :: rest =>
    let cd := pyRoundDiv (dur * KARALUXER_BPS) 100
    match otext with
    | none => convertGo bpm (cb + cd) rest
    | some stext =>
      if stext = "" then convertGo bpm (cb + cd) rest
      else
        { note_type := ":"
          start_beat := pyRoundDiv (cb * bpm) KARALUXER_BPM
          duration := some (pyRoundDiv ((if 1 < cd then cd - 1 else cd) * bpm) KARALUXER_BPM)
          pitch := some DEFAULT_PITCH
          text := some stext } :: convertGo bpm (cb + cd) rest

/-- One line of `_convert_lines`:
`current_beat = round(line.start.total_seconds() * KARALUXER_BPS)`.  The
start time is passed in microseconds, the exact resolution of the parsed
`ass` timedelta, so the rounding is the exact
`round(us * KARALUXER_BPS / 10^6)`. -/
def convert_line (bpm startUs : ℤ) (sylls : List (ℤ × Option String)) : List NoteLine :=
  convertGo bpm (pyRoundDiv (startUs * KARALUXER_BPS) 1000000) sylls

def c1LineText : List Char := "\x7b\\k50\x7dHel\x7b\\k50\x7dlo".data

/-- C1: for a subtitle line with start time 1.00 s and text
`{\k50}Hel{\k50}lo`, the beat converter run with `KARALUXER_BPS = 100` and
the default karaoke BPM of 1500 (scale factor 1, no rescaling) emits exactly
three note lines for that line, in order: the regular note `: 100 49 19 Hel`,
the regular note `: 150 49 19 lo`, and the linebreak `- 200`. -/
theorem convert_c1_scenario :
    (convert_line 1500 1000000 (extractSyllables c1LineText)).map noteLineStr
      = [": 100 49 19 Hel", ": 150 49 19 lo", "- 200"] := by decide

